import Mathlib

/-!
Verification of the chariot-engine trade-matching pipeline.

This file gives a shallow embedding of the core Python modules
(`src/loop_matching.py`, `src/simulate_trades.py`,
`src/run_periodic_simulation.py`, `src/generate_users.py`) and proves or
refutes the frozen specification claims about them.

Modelling conventions:
* monetary values and scores are exact rationals (`ℚ`); the Python floats
  are modelled as real-valued quantities, so float representation error is
  out of scope, but every rounding step written in the source is embedded
  explicitly;
* pandas DataFrames become Lean lists of records, in row order;
* the Python `random` module is modelled as a draw oracle
  `Nat → ℚ → Bool`: the first argument is the index of the draw (how many
  draws the run has consumed so far), the second the accept probability
  passed to `random.choices`; the result is the accept/decline outcome.
  A run consumes one draw per member of each considered cycle, exactly as
  the source calls `random.choices` once per member;
* Python dicts become association lists with insertion-order overwrite
  semantics (`dictSet`), or total functions `Nat → Option _` for the
  user-status dict.
-/

/-- Participant record, one row of the users table
(`generate_users.py` column layout). -/
structure Participant where
  user_id : Nat
  have_watch : Nat
  have_value : ℚ
  min_acceptable_item_value : ℚ
  max_cash_top_up : ℚ
deriving DecidableEq, Repr

instance : Inhabited Participant := ⟨⟨0, 0, 0, 0, 0⟩⟩

/-- The edge test of `build_trade_graph` (`loop_matching.py` lines 101-105):
`values[i] >= min_values[j] and watches[i] != watches[j] and
values[i] - values[j] <= max_tops[j]`. -/
def validPair (df : List Participant) (i j : Nat) : Bool :=
  let x := df.getD i default
  let y := df.getD j default
  decide (y.min_acceptable_item_value ≤ x.have_value) &&
  decide (x.have_watch ≠ y.have_watch) &&
  decide (x.have_value - y.have_value ≤ y.max_cash_top_up)

/-- Embedding of `build_trade_graph` (`loop_matching.py` lines 86-111): for
each source node `i` in order, add edges `(i, j)` for every `j` passing the
vectorised mask, skipping `i = j`.  The graph is represented by its edge
list; nodes are the row indices `0 .. df.length - 1`. -/
def build_trade_graph (df : List Participant) : List (Nat × Nat) :=
  (List.range df.length).flatMap fun i =>
    ((List.range df.length).filter fun j =>
      validPair df i j && decide (i ≠ j)).map fun j => (i, j)

/-- A raw loop emitted by `find_valid_loops`: the member row indices and the
loop type (`true` for a 3-way loop, `false` for a 2-way loop). -/
structure RawLoop where
  idxs : List Nat
  threeWay : Bool
deriving DecidableEq, Repr

/-- The 2-way part of `find_valid_loops` (`loop_matching.py` lines 144-147):
for each edge `(u, v)` of the graph, emit `[u, v]` iff the reverse edge
exists and `u < v`. -/
def twoWayLoops (n : Nat) (E : Nat → Nat → Bool) : List RawLoop :=
  (List.range n).flatMap fun u =>
    ((List.range n).filter fun v => E u v && E v u && decide (u < v)).map
      fun v => ⟨[u, v], false⟩

/-- The 3-way part of `find_valid_loops` (`loop_matching.py` lines 149-155):
iterate `a` over nodes, `b` over successors of `a`, `c` over successors of
`b`; emit `[a, b, c]` iff the closing edge `(c, a)` exists, `a < b < c`,
and the three indices are pairwise distinct (`len(set([a,b,c])) == 3`). -/
def threeWayLoops (n : Nat) (E : Nat → Nat → Bool) : List RawLoop :=
  (List.range n).flatMap fun a =>
    ((List.range n).filter fun b => E a b).flatMap fun b =>
      (((List.range n).filter fun c => E b c).filter fun c =>
        E c a && decide (a < b) && decide (b < c) &&
        decide (a ≠ b) && decide (a ≠ c) && decide (b ≠ c)).map
        fun c => ⟨[a, b, c], true⟩

/-- Embedding of `find_valid_loops` (`loop_matching.py` lines 114-156): the
2-way loops followed by the 3-way loops, over a graph with node set
`0 .. n-1` and edge predicate `E`. -/
def find_valid_loops (n : Nat) (E : Nat → Nat → Bool) : List RawLoop :=
  twoWayLoops n E ++ threeWayLoops n E

/-- Python `round(x, 2)` rounds half to even.  `bankersRound` is that
rounding to the nearest integer, over exact rationals. -/
def bankersRound (q : ℚ) : ℤ :=
  let f := ⌊q⌋
  let r := q - (f : ℚ)
  if r < 1/2 then f
  else if 1/2 < r then f + 1
  else if Even f then f else f + 1

/-- Rounding to cents, the `round(.., 2)` of `enrich_loops`. -/
def round2 (x : ℚ) : ℚ := (bankersRound (x * 100) : ℚ) / 100

/-- The cash-flow vector of `enrich_loops` (`loop_matching.py` line 198):
`cash_flows = [round(values[i] - values[(i + 1) % n], 2) for i in range(n)]`. -/
def cashFlows (vals : List ℚ) : List ℚ :=
  (List.range vals.length).map fun i =>
    round2 (vals.getD i 0 - vals.getD ((i + 1) % vals.length) 0)

/-- The cash-flow annotation of a raw loop in `enrich_loops`
(`loop_matching.py` lines 190-198): member item values are looked up by row
index, then the rounded cyclic differences are taken. -/
def enrichCashFlows (df : List Participant) (idxs : List Nat) : List ℚ :=
  cashFlows (idxs.map fun i => (df.getD i default).have_value)

/-- A rational is a whole number of cents. -/
def IsCents (x : ℚ) : Prop := ∃ m : ℤ, x = (m : ℚ) / 100

/-- Embedding of `get_trade_weights` (`simulate_trades.py` lines 42-71):
base weight 0.5, an efficiency modifier from five bands, a fairness
modifier from five bands, returned as the `[decline, accept]` weight
pair. -/
def get_trade_weights (fairness_score value_efficiency : ℚ) : ℚ × ℚ :=
  let base_weight : ℚ := 1/2
  let efficiency_modifier : ℚ :=
    if value_efficiency < 8/10 then -(4/10)
    else if value_efficiency < 8338/10000 then 0
    else if value_efficiency < 86/100 then 15/100
    else if value_efficiency < 898/1000 then 25/100
    else 35/100
  let fairness_modifier : ℚ :=
    if fairness_score < 7469/10000 then 0
    else if fairness_score < 7888/10000 then 3/100
    else if fairness_score < 8509/10000 then 8/100
    else if fairness_score < 9/10 then 12/100
    else 15/100
  let accept_weight := base_weight + efficiency_modifier + fairness_modifier
  (1 - accept_weight, accept_weight)

/-- Modelled from the spec: the acceptance-probability table claimed in
C2 (spec section 4.4) — base probability from the value-efficiency bands
(0.10 / 0.50 / 0.65 / 0.75 / 0.85), a fairness boost
(+0.00 / +0.03 / +0.08 / +0.12 / +0.15), the result clamped to [0, 1].
This is the spec-side comparator; the code-side resolver is `simStep`. -/
def specAcceptTable (value_efficiency fairness : ℚ) : ℚ :=
  let base : ℚ :=
    if value_efficiency < 8/10 then 1/10
    else if value_efficiency < 8338/10000 then 1/2
    else if value_efficiency < 86/100 then 65/100
    else if value_efficiency < 898/1000 then 75/100
    else 85/100
  let boost : ℚ :=
    if fairness < 7469/10000 then 0
    else if fairness < 7888/10000 then 3/100
    else if fairness < 8509/10000 then 8/100
    else if fairness < 9/10 then 12/100
    else 15/100
  max 0 (min 1 (base + boost))

/-- Participant status in `simulate_trade_loops`: the `user_status` dict
holds `available`, `matched` or `declined`. -/
inductive Status where
  | available
  | matched
  | declined
deriving DecidableEq, Repr

/-- The `user_status` dict: `none` means the user id is not a key. -/
abbrev StatusMap := Nat → Option Status

/-- Python `user_status.get(u, d)`. -/
def statusGetD (m : StatusMap) (u : Nat) (d : Status) : Status := (m u).getD d

/-- Python `user_status[u] = s` (only used on existing keys in the source). -/
def statusSet (m : StatusMap) (u : Nat) (s : Status) : StatusMap :=
  fun v => if v = u then some s else m v

/-- `user_status = {uid: 'available' for uid in users_df['user_id']}`
(`simulate_trades.py` line 80). -/
def initStatus (users : List Nat) : StatusMap :=
  fun u => if u ∈ users then some Status.available else none

/-- One row of the candidate-loop table consumed by `simulate_trade_loops`:
the member user ids (`user_1..user_3`, missing columns dropped), the
`relative_fairness_score` (`none` for NaN/missing) and the cycle's
`value_efficiency` score (carried in the row but never read by the
resolver). -/
structure LoopRow where
  members : List Nat
  fairness : Option ℚ
  value_efficiency : ℚ
deriving DecidableEq, Repr

/-- A considered loop as recorded in the executed/rejected logs:
`trade_id` (`some k` stands for the string `T{k:05d}`, `none` for `N/A`),
the members, the fairness score, the accept probability used for the
draws, and the per-member decisions (`true` = accept). -/
structure DecidedLoop where
  tradeId : Option Nat
  members : List Nat
  fairness : Option ℚ
  weight : ℚ
  decisions : List (Nat × Bool)
deriving DecidableEq, Repr

/-- The mutable state of one `simulate_trade_loops` scan: the status dict,
the two output logs, the trade counter (`trade_counter[0]`), and the
number of random draws consumed so far. -/
structure SimState where
  status : StatusMap
  executed : List DecidedLoop
  rejected : List DecidedLoop
  counter : Nat
  draws : Nat

/-- Validity test used both by the pre-filter
(`user_status.get(u, 'matched') == 'available'`, lines 89-93) and by the
in-scan re-check (`user_status[u] == 'available'`, line 111; members of
filtered rows are always keys, so the `.get` default is never hit
there). -/
def rowLive (m : StatusMap) (row : LoopRow) : Bool :=
  row.members.all fun u => decide (statusGetD m u Status.matched = Status.available)

/-- Python dict insertion with overwrite, preserving insertion order:
used for the per-loop `decisions` dict comprehension. -/
def dictSet (d : List (Nat × Bool)) (u : Nat) (b : Bool) : List (Nat × Bool) :=
  if d.any fun p => p.1 == u then
    d.map fun p => if p.1 == u then (u, b) else p
  else d ++ [(u, b)]

/-- The decisions dict
`{u: random.choices(['accept','decline'], weights=weights)[0] for u in loop_users}`
(`simulate_trades.py` lines 127-130): one oracle draw per member in order
(index `k` is the global draw counter), collected into a dict. -/
def decisionsFor (oracle : Nat → ℚ → Bool) (w : ℚ) :
    Nat → List Nat → List (Nat × Bool) → List (Nat × Bool)
  | _, [], d => d
  | k, u :: rest, d => decisionsFor oracle w (k + 1) rest (dictSet d u (oracle k w))

/-- The accept probability the resolver feeds `random.choices`
(`simulate_trades.py` lines 116-125): 0.5 for a missing fairness score,
otherwise 0.8 / 0.6 / 0.4 / 0.2 by position of the fairness score
relative to the quartiles (the first entry of `weights` is the weight of
the `'accept'` outcome). -/
def acceptWeight (fairness : Option ℚ) (q1 q2 q3 : ℚ) : ℚ :=
  match fairness with
  | none => 1/2
  | some f =>
    if f ≤ q1 then 8/10
    else if f ≤ q2 then 6/10
    else if f ≤ q3 then 4/10
    else 2/10

/-- The unanimous-accept branch (`simulate_trades.py` lines 173-181):
`user_status[u] = 'matched'` for every loop member. -/
def matchAll (l : List Nat) (m : StatusMap) : StatusMap :=
  l.foldl (fun m' u => statusSet m' u Status.matched) m

/-- The decline branch (`simulate_trades.py` lines 183-189):
`user_status[u] = 'declined'` for every member whose decision was
decline. -/
def declineAll (ds : List (Nat × Bool)) (m : StatusMap) : StatusMap :=
  ds.foldl (fun m' p => if p.2 then m' else statusSet m' p.1 Status.declined) m

/-- The record built for a considered loop (`simulate_trades.py` lines
132-137): the next trade id `T{counter+1:05d}`, the members, the accept
probability in force and the drawn decisions. -/
def stepRec (oracle : Nat → ℚ → Bool) (q1 q2 q3 : ℚ) (st : SimState) (row : LoopRow) :
    DecidedLoop :=
  ⟨some (st.counter + 1), row.members, row.fairness,
   acceptWeight row.fairness q1 q2 q3,
   decisionsFor oracle (acceptWeight row.fairness q1 q2 q3) st.draws row.members []⟩

/-- One iteration of the scan loop of `simulate_trade_loops`
(lines 109-193): re-check availability (skip silently otherwise), draw a
decision per member, then either mark every member matched and append to
the executed log, or mark the decliners declined and append to the
rejected log; the trade counter advances in both branches.  The queue
bookkeeping and the side logs (`user_queue`, `user_trade_log`,
`user_history_tracker`) are write-only state that never feeds back into
any decision, so they are not modelled. -/
def simStep (oracle : Nat → ℚ → Bool) (q1 q2 q3 : ℚ) (st : SimState) (row : LoopRow) :
    SimState :=
  if rowLive st.status row then
    let r := stepRec oracle q1 q2 q3 st row
    if r.decisions.all fun p => p.2 then
      ⟨matchAll row.members st.status,
       st.executed ++ [r], st.rejected, st.counter + 1, st.draws + row.members.length⟩
    else
      ⟨declineAll r.decisions st.status,
       st.executed, st.rejected ++ [r], st.counter + 1, st.draws + row.members.length⟩
  else st

/-- Insert into a sorted list, keeping ascending order. -/
def insertSorted (x : ℚ) : List ℚ → List ℚ
  | [] => [x]
  | y :: ys => if x ≤ y then x :: y :: ys else y :: insertSorted x ys

/-- Ascending sort (insertion sort; the source sorts values inside
`Series.quantile`, and only the sorted order matters). -/
def sortAsc (xs : List ℚ) : List ℚ := xs.foldr insertSorted []

/-- pandas `Series.quantile(p)` with the default linear interpolation:
on the ascending sorted values `s` of length `m`, let `h = p * (m - 1)`,
`i = floor(h)`; the result is `s[i] + (h - i) * (s[i+1] - s[i])`.
Returns 0 on an empty series, as the source substitutes
(`simulate_trades.py` lines 101-105). -/
def quantileOf (xs : List ℚ) (p : ℚ) : ℚ :=
  let s := sortAsc xs
  let m := s.length
  if m = 0 then 0
  else
    let h : ℚ := p * ((m : ℚ) - 1)
    let i : Nat := (⌊h⌋).toNat
    let lo := s.getD i 0
    let hi := s.getD (i + 1) lo
    lo + (h - (i : ℚ)) * (hi - lo)

/-- The fairness scores feeding the quartiles:
`filtered_loops['relative_fairness_score'].dropna()`
(`simulate_trades.py` line 101). -/
def fairnessPool (users : List Nat) (loops : List LoopRow) : List ℚ :=
  (loops.filter (rowLive (initStatus users))).filterMap LoopRow.fairness

/-- Embedding of `simulate_trade_loops` (`simulate_trades.py` lines
73-208): build the status dict, pre-filter the loop table against it,
take the fairness quartiles of the surviving rows, then scan them in
order with `simStep`.  `c0` is the incoming `trade_counter[0]`. -/
def simulate (users : List Nat) (loops : List LoopRow) (oracle : Nat → ℚ → Bool)
    (c0 : Nat) : SimState :=
  let st0 : StatusMap := initStatus users
  let filtered := loops.filter (rowLive st0)
  let pool := filtered.filterMap LoopRow.fairness
  let q1 := quantileOf pool (1/4)
  let q2 := quantileOf pool (2/4)
  let q3 := quantileOf pool (3/4)
  filtered.foldl (simStep oracle q1 q2 q3) ⟨st0, [], [], c0, 0⟩

/-- Python `int()` on a rational: truncation toward zero (the conversion
used for `new_user_count` in `run_periodic_simulation.py` line 40). -/
def ratTrunc (x : ℚ) : ℤ := if 0 ≤ x then ⌊x⌋ else -⌊-x⌋

/-- The new-user count of `run_multi_period_simulation` (line 40):
`int(initial_users * ((1 + growth_rate) ** period))`, where `period` is
the 0-based loop index (the 1-based period is `period + 1`). -/
def newUserCount (initialUsers growthRate : ℚ) (periodIdx : Nat) : ℤ :=
  ratTrunc (initialUsers * (1 + growthRate) ^ periodIdx)

/-- Modelled from the spec: the claimed admission count
`round(initial_count * (1 + growth_rate) ^ (period_index - 1))` for a
1-based period index; the spec-side comparator for claim C9. -/
def specNewCount (initialUsers growthRate : ℚ) (p : Nat) : ℤ :=
  round (initialUsers * (1 + growthRate) ^ (p - 1))

/-- The loop cap passed by `run_loop_matching` (`loop_matching.py`
line 248): `max_loops = min(1000, n_users * 2)`. -/
def maxLoopsFor (nUsers : Nat) : Nat := min 1000 (2 * nUsers)

/-- Modelled from the spec: the cycle enumerator invoked by
`run_loop_matching` is the Rust `TradeGraph.find_loops` of
`chariot_engine_core`, whose source is not in this repository; per the
spec (section 4.3) the enumerator caps its output at the caller-supplied
`max_cycles`.  This predicate states that cap for one period's loop
table. -/
abbrev FindLoopsRespectsCap (loops : List LoopRow) (nUsers : Nat) : Prop :=
  loops.length ≤ maxLoopsFor nUsers

/-- One period's inputs to the driver: the period's user pool, the
candidate-loop table produced for it, and the draw oracle standing for
the RNG during that period. -/
structure PeriodInput where
  users : List Nat
  loops : List LoopRow
  oracle : Nat → ℚ → Bool

/-- The period loop of `run_multi_period_simulation`
(`run_periodic_simulation.py` lines 32-119): period `p` (0-based) runs
the trade simulation with `trade_counter=[period * 1000]` (line 118). -/
def runPeriodsFrom : Nat → List PeriodInput → List SimState
  | _, [] => []
  | p, e :: rest => simulate e.users e.loops e.oracle (p * 1000) :: runPeriodsFrom (p + 1) rest

/-- Embedding of the multi-period driver: all periods from index 0. -/
def run_multi_period_simulation (cfg : List PeriodInput) : List SimState :=
  runPeriodsFrom 0 cfg

/-- The trade-counter values of a period's executed log, in emission
order (every executed record carries `some k`; `getD` only strips the
constructor). -/
def execTradeIds (st : SimState) : List Nat :=
  st.executed.map fun r => r.tradeId.getD 0

/-- All executed trade-counter values of a run, period by period in
emission order. -/
def allExecIds (cfg : List PeriodInput) : List Nat :=
  (run_multi_period_simulation cfg).flatMap execTradeIds

/-- The scan invariant of `simulate_trade_loops`, relative to the initial
counter `c0` and the quartiles in force: executed members are marked
matched; decliners of rejected loops are marked declined; executed loops
are pairwise disjoint; every logged loop got the trade id `counter + 1`
of its moment, so ids sit in `(c0, counter]`; executed ids grow strictly;
the recorded accept probability is the quartile weight of the row's
fairness score; executed loops are exactly the unanimous ones. -/
structure ScanInv (c0 : Nat) (q1 q2 q3 : ℚ) (st : SimState) : Prop where
  execMatched : ∀ r ∈ st.executed, ∀ u ∈ r.members, st.status u = some Status.matched
  rejDeclined : ∀ r ∈ st.rejected, ∀ p ∈ r.decisions, p.2 = false →
    st.status p.1 = some Status.declined
  execDisjoint : List.Pairwise (fun r1 r2 => ∀ u ∈ r1.members, u ∉ r2.members) st.executed
  idsAssigned : ∀ r ∈ st.executed ++ st.rejected,
    ∃ k, r.tradeId = some k ∧ c0 < k ∧ k ≤ st.counter
  execIdsMono : List.Pairwise
    (fun r1 r2 => ∀ k1 k2, r1.tradeId = some k1 → r2.tradeId = some k2 → k1 < k2)
    st.executed
  counterLB : c0 ≤ st.counter
  weightsOK : ∀ r ∈ st.executed ++ st.rejected,
    r.weight = acceptWeight r.fairness q1 q2 q3
  execAccepted : ∀ r ∈ st.executed, (r.decisions.all fun p => p.2) = true
  rejRefused : ∀ r ∈ st.rejected, (r.decisions.all fun p => p.2) = false

/-- Fixture: the two-participant pool of spec scenario S1. -/
def dfPair : List Participant :=
  [⟨1, 10, 100, 90, 20⟩, ⟨2, 11, 110, 95, 20⟩]

/-- Fixture oracle: every draw accepts. -/
def oracleTrue : Nat → ℚ → Bool := fun _ _ => true

/-- Fixture oracle: every draw declines. -/
def oracleFalse : Nat → ℚ → Bool := fun _ _ => false

/-- Fixture oracle: the first two draws accept, later draws decline. -/
def oracleTwo : Nat → ℚ → Bool := fun k _ => decide (k < 2)

/-- Fixture loop row joining users 0 and 1. -/
def rowAB : LoopRow := ⟨[0, 1], some (1/2), 9/10⟩

/-- Fixture loop row joining users 0 and 2. -/
def rowAC : LoopRow := ⟨[0, 2], some (3/4), 9/10⟩

/-- Fixture loop row whose second member (user 5) is absent from the
fixture pools. -/
def rowBad : LoopRow := ⟨[1, 5], some (1/2), 9/10⟩

/-- Fixture loop row joining users 1 and 2. -/
def rowGood : LoopRow := ⟨[1, 2], some (1/2), 9/10⟩

/-- Fixture edge relation: a single directed 3-cycle over nodes 0, 1, 2. -/
def edge3 : Nat → Nat → Bool := fun i j => decide ((i, j) ∈ [(0, 1), (1, 2), (2, 0)])

/-! ## Theorems -/

theorem twoWayLoops_flag {n : Nat} {E : Nat → Nat → Bool} {r : RawLoop}
    (h : r ∈ twoWayLoops n E) : r.threeWay = false := by
  simp only [twoWayLoops, List.mem_flatMap, List.mem_map, List.mem_filter,
    List.mem_range] at h
  obtain ⟨u, -, v, -, rfl⟩ := h
  rfl

/-- Claim C1: for participants `i`, `j` in the pool, `build_trade_graph`
contains the directed edge `(i, j)` iff `i ≠ j`, the held watches differ,
`i`'s item value is at least `j`'s floor, and the value difference is
within `j`'s top-up limit; in particular the graph never contains a
self-loop. -/
theorem claim_C1 (df : List Participant) :
    (∀ i j, i < df.length → j < df.length →
      ((i, j) ∈ build_trade_graph df ↔
        (i ≠ j ∧
         (df.getD i default).have_watch ≠ (df.getD j default).have_watch ∧
         (df.getD j default).min_acceptable_item_value ≤ (df.getD i default).have_value ∧
         (df.getD i default).have_value - (df.getD j default).have_value ≤
           (df.getD j default).max_cash_top_up))) ∧
    (∀ v, (v, v) ∉ build_trade_graph df) := by
  have hmem : ∀ i j, (i, j) ∈ build_trade_graph df ↔
      (i < df.length ∧ j < df.length ∧ i ≠ j ∧ validPair df i j = true) := by
    intro i j
    simp only [build_trade_graph, List.mem_flatMap, List.mem_map, List.mem_filter,
      List.mem_range, Bool.and_eq_true, decide_eq_true_eq, Prod.mk.injEq]
    constructor
    · rintro ⟨a, ha, b, ⟨hb, hv, hne⟩, rfl, rfl⟩
      exact ⟨ha, hb, hne, hv⟩
    · rintro ⟨hi, hj, hne, hv⟩
      exact ⟨i, hi, j, ⟨hj, hv, hne⟩, rfl, rfl⟩
  constructor
  · intro i j hi hj
    rw [hmem]
    simp only [validPair, Bool.and_eq_true, decide_eq_true_eq]
    constructor
    · rintro ⟨-, -, hne, ⟨hmin, hwatch⟩, htop⟩
      exact ⟨hne, hwatch, hmin, htop⟩
    · rintro ⟨hne, hwatch, hmin, htop⟩
      exact ⟨hi, hj, hne, ⟨hmin, hwatch⟩, htop⟩
  · intro v hv
    exact (((hmem v v).mp hv).2.2.1) rfl

/-- Witness for claim C1: the fixture pool of scenario S1 evaluated at the
pair (0, 1). -/
theorem claim_C1_witness :
    (0, 1) ∈ build_trade_graph dfPair ↔
      (0 ≠ 1 ∧
       (dfPair.getD 0 default).have_watch ≠ (dfPair.getD 1 default).have_watch ∧
       (dfPair.getD 1 default).min_acceptable_item_value ≤ (dfPair.getD 0 default).have_value ∧
       (dfPair.getD 0 default).have_value - (dfPair.getD 1 default).have_value ≤
         (dfPair.getD 1 default).max_cash_top_up) :=
  (claim_C1 dfPair).1 0 1 (by decide) (by decide)

/-- Claim C3: `find_valid_loops` emits the 3-cycle `(a, b, c)` iff
`a < b < c` and the three directed edges `(a, b)`, `(b, c)`, `(c, a)` are
in the graph; every emitted 3-cycle is strictly sorted, so each unordered
triple yields at most one emitted cycle, and for `a < b < c` the reverse
orientation `(a, c, b)` is never emitted. -/
theorem claim_C3 (n : Nat) (E : Nat → Nat → Bool) :
    (∀ a b c, c < n →
      ((⟨[a, b, c], true⟩ : RawLoop) ∈ find_valid_loops n E ↔
        (a < b ∧ b < c ∧ E a b = true ∧ E b c = true ∧ E c a = true))) ∧
    (∀ x y z, (⟨[x, y, z], true⟩ : RawLoop) ∈ find_valid_loops n E → x < y ∧ y < z) ∧
    (∀ a b c, a < b → b < c →
      (⟨[a, c, b], true⟩ : RawLoop) ∉ find_valid_loops n E) := by
  have hmem : ∀ x y z, (⟨[x, y, z], true⟩ : RawLoop) ∈ find_valid_loops n E ↔
      (x < n ∧ y < n ∧ z < n ∧ x < y ∧ y < z ∧
        E x y = true ∧ E y z = true ∧ E z x = true) := by
    intro x y z
    simp only [find_valid_loops, List.mem_append]
    constructor
    · rintro (h | h)
      · exact absurd (twoWayLoops_flag h) (by simp)
      · simp only [threeWayLoops, List.mem_flatMap, List.mem_map, List.mem_filter,
          List.mem_range, Bool.and_eq_true, decide_eq_true_eq,
          RawLoop.mk.injEq, List.cons.injEq] at h
        obtain ⟨a, ha, b, ⟨hb, hab⟩, c, ⟨⟨hc, hbc⟩, ⟨⟨⟨⟨hca, h1⟩, h2⟩, -⟩, -⟩, -⟩,
          ⟨rfl, rfl, rfl, -⟩, -⟩ := h
        exact ⟨ha, hb, hc, h1, h2, hab, hbc, hca⟩
    · rintro ⟨hx, hy, hz, hxy, hyz, hexy, heyz, hezx⟩
      right
      simp only [threeWayLoops, List.mem_flatMap, List.mem_map, List.mem_filter,
        List.mem_range, Bool.and_eq_true, decide_eq_true_eq,
        RawLoop.mk.injEq, List.cons.injEq]
      exact ⟨x, hx, y, ⟨hy, hexy⟩, z,
        ⟨⟨hz, heyz⟩, ⟨⟨⟨⟨hezx, hxy⟩, hyz⟩, Nat.ne_of_lt hxy⟩,
          Nat.ne_of_lt (hxy.trans hyz)⟩, Nat.ne_of_lt hyz⟩,
        ⟨rfl, rfl, rfl, trivial⟩, trivial⟩
  refine ⟨?_, ?_, ?_⟩
  · intro a b c hc
    rw [hmem]
    constructor
    · rintro ⟨-, -, -, h1, h2, h3, h4, h5⟩
      exact ⟨h1, h2, h3, h4, h5⟩
    · rintro ⟨h1, h2, h3, h4, h5⟩
      exact ⟨(h1.trans h2).trans hc, h2.trans hc, hc, h1, h2, h3, h4, h5⟩
  · intro x y z h
    obtain ⟨-, -, -, h1, h2, -⟩ := (hmem x y z).mp h
    exact ⟨h1, h2⟩
  · intro a b c hab hbc h
    obtain ⟨-, -, -, -, h2, -⟩ := (hmem a c b).mp h
    exact absurd (h2.trans hbc) (Nat.lt_irrefl c)

/-- Witness for claim C3: over the fixture 3-cycle graph, the sorted
triple (0, 1, 2) is emitted. -/
theorem claim_C3_witness :
    (⟨[0, 1, 2], true⟩ : RawLoop) ∈ find_valid_loops 3 edge3 :=
  ((claim_C3 3 edge3).1 0 1 2 (by decide)).mpr (by decide)

theorem bankersRound_intCast (m : ℤ) : bankersRound (m : ℚ) = m := by
  simp [bankersRound, Int.floor_intCast]

theorem IsCents.sub {a b : ℚ} (ha : IsCents a) (hb : IsCents b) : IsCents (a - b) := by
  obtain ⟨ma, rfl⟩ := ha
  obtain ⟨mb, rfl⟩ := hb
  exact ⟨ma - mb, by push_cast; ring⟩

theorem round2_cents {x : ℚ} (h : IsCents x) : round2 x = x := by
  obtain ⟨m, rfl⟩ := h
  have hx : (m : ℚ) / 100 * 100 = (m : ℚ) := by field_simp
  rw [round2, hx, bankersRound_intCast]

/-- Claim C4 (amended): for a 2- or 3-cycle annotated by `enrich_loops`,
`cash_flows[t] = round2(item_value(i_t) − item_value(i_{(t+1) mod k}))`
always; when every item value is a whole number of cents — as every value
produced by the pipeline is, `generate_users.py` rounding all values with
`round(.., 2)` — the rounding is exact and the k cash flows sum to
exactly zero.  (For arbitrary real item values the rounded flows need not
cancel; see the counterexample.) -/
theorem claim_C4_amended (va vb vc : ℚ)
    (ha : IsCents va) (hb : IsCents vb) (hc : IsCents vc) :
    cashFlows [va, vb] = [round2 (va - vb), round2 (vb - va)] ∧
    cashFlows [va, vb] = [va - vb, vb - va] ∧
    (cashFlows [va, vb]).sum = 0 ∧
    cashFlows [va, vb, vc] = [round2 (va - vb), round2 (vb - vc), round2 (vc - va)] ∧
    cashFlows [va, vb, vc] = [va - vb, vb - vc, vc - va] ∧
    (cashFlows [va, vb, vc]).sum = 0 := by
  have h2 : cashFlows [va, vb] = [round2 (va - vb), round2 (vb - va)] := by
    simp [cashFlows, List.range_succ]
  have h3 : cashFlows [va, vb, vc] =
      [round2 (va - vb), round2 (vb - vc), round2 (vc - va)] := by
    simp [cashFlows, List.range_succ]
  have e2 : cashFlows [va, vb] = [va - vb, vb - va] := by
    rw [h2, round2_cents (ha.sub hb), round2_cents (hb.sub ha)]
  have e3 : cashFlows [va, vb, vc] = [va - vb, vb - vc, vc - va] := by
    rw [h3, round2_cents (ha.sub hb), round2_cents (hb.sub hc), round2_cents (hc.sub ha)]
  refine ⟨h2, e2, ?_, h3, e3, ?_⟩
  · rw [e2]; simp only [List.sum_cons, List.sum_nil]; ring
  · rw [e3]; simp only [List.sum_cons, List.sum_nil]; ring

theorem statusGetD_available {m : StatusMap} {u : Nat} :
    statusGetD m u Status.matched = Status.available ↔ m u = some Status.available := by
  unfold statusGetD
  cases h : m u with
  | none => simp
  | some s => cases s <;> simp

theorem statusGetD_of_not_key {users : List Nat} {u : Nat} (h : u ∉ users) :
    statusGetD (initStatus users) u Status.matched = Status.matched := by
  simp [statusGetD, initStatus, h]

theorem rowLive_iff {m : StatusMap} {row : LoopRow} :
    rowLive m row = true ↔ ∀ u ∈ row.members, m u = some Status.available := by
  simp [rowLive, List.all_eq_true, statusGetD_available]

theorem statusSet_same (m : StatusMap) (u : Nat) (s : Status) :
    statusSet m u s u = some s := by
  simp [statusSet]

theorem statusSet_other (m : StatusMap) (s : Status) {u v : Nat} (h : v ≠ u) :
    statusSet m u s v = m v := by
  simp [statusSet, h]

theorem matchAll_not_mem : ∀ (l : List Nat) (m : StatusMap) {u : Nat}, u ∉ l →
    matchAll l m u = m u
  | [], _, _, _ => rfl
  | a :: l, m, u, hu => by
    have h1 : u ∉ l := fun h => hu (List.mem_cons_of_mem a h)
    have h2 : u ≠ a := fun h => hu (h ▸ List.mem_cons_self a l)
    calc matchAll l (statusSet m a Status.matched) u
        = statusSet m a Status.matched u := matchAll_not_mem l _ h1
      _ = m u := statusSet_other m _ h2

theorem matchAll_mem : ∀ (l : List Nat) (m : StatusMap) {u : Nat}, u ∈ l →
    matchAll l m u = some Status.matched
  | a :: l, m, u, hu => by
    by_cases h1 : u ∈ l
    · exact matchAll_mem l _ h1
    · have h2 : u = a := by
        rcases List.mem_cons.mp hu with h | h
        · exact h
        · exact absurd h h1
      calc matchAll l (statusSet m a Status.matched) u
          = statusSet m a Status.matched u := matchAll_not_mem l _ h1
        _ = some Status.matched := by rw [h2]; exact statusSet_same m a _

theorem declineAll_not_key : ∀ (ds : List (Nat × Bool)) (m : StatusMap) {u : Nat},
    u ∉ ds.map Prod.fst → declineAll ds m u = m u
  | [], _, _, _ => rfl
  | p :: ds, m, u, hu => by
    have h1 : u ∉ ds.map Prod.fst := by
      intro h
      exact hu (by simp only [List.map_cons, List.mem_cons]; exact Or.inr h)
    have h2 : u ≠ p.1 := by
      intro h
      exact hu (by simp only [List.map_cons, List.mem_cons]; exact Or.inl h)
    show declineAll ds (if p.2 then m else statusSet m p.1 Status.declined) u = m u
    rw [declineAll_not_key ds _ h1]
    by_cases hp : p.2
    · simp [hp]
    · simp only [hp, if_neg, Bool.false_eq_true, not_false_iff, if_false]
      exact statusSet_other m _ h2

theorem declineAll_false_mem : ∀ (ds : List (Nat × Bool)) (m : StatusMap) {u : Nat},
    (ds.map Prod.fst).Nodup → (u, false) ∈ ds →
    declineAll ds m u = some Status.declined
  | p :: ds, m, u, hnd, hu => by
    have hnd' : (ds.map Prod.fst).Nodup := (List.nodup_cons.mp hnd).2
    rcases List.mem_cons.mp hu with h | h
    · have hkey : u ∉ ds.map Prod.fst := by
        have := (List.nodup_cons.mp hnd).1
        rw [← h] at this
        exact this
      show declineAll ds (if p.2 then m else statusSet m p.1 Status.declined) u =
        some Status.declined
      rw [declineAll_not_key ds _ hkey, ← h]
      simp [statusSet_same]
    · exact declineAll_false_mem ds _ hnd' h

theorem mem_dictSet {d : List (Nat × Bool)} {u : Nat} {b : Bool} {p : Nat × Bool}
    (hp : p ∈ dictSet d u b) : p = (u, b) ∨ (p ∈ d ∧ p.1 ≠ u) := by
  unfold dictSet at hp
  by_cases hany : d.any fun q => q.1 == u
  · rw [if_pos hany] at hp
    obtain ⟨q, hq, hqe⟩ := List.mem_map.mp hp
    by_cases hqu : q.1 == u
    · rw [if_pos hqu] at hqe
      exact Or.inl hqe.symm
    · rw [if_neg hqu] at hqe
      refine Or.inr ⟨hqe ▸ hq, ?_⟩
      rw [← hqe]
      exact fun h => hqu (by simp [h])
  · rw [if_neg hany] at hp
    rcases List.mem_append.mp hp with h | h
    · refine Or.inr ⟨h, fun he => hany ?_⟩
      exact List.any_eq_true.mpr ⟨p, h, by simp [he]⟩
    · exact Or.inl (List.mem_singleton.mp h)

theorem keys_dictSet {d : List (Nat × Bool)} {u : Nat} {b : Bool}
    (h : ((d.map Prod.fst)).Nodup) : (((dictSet d u b).map Prod.fst)).Nodup := by
  unfold dictSet
  by_cases hany : d.any fun q => q.1 == u
  · rw [if_pos hany]
    have : ((d.map fun p => if p.1 == u then (u, b) else p).map Prod.fst) =
        d.map Prod.fst := by
      rw [List.map_map]
      refine List.map_congr_left fun p _ => ?_
      by_cases hpu : p.1 == u
      · have hpu' : p.1 = u := by simpa using hpu
        simp only [Function.comp_apply, if_pos hpu]
        exact hpu'.symm
      · simp only [Function.comp_apply, if_neg hpu]
    rw [this]
    exact h
  · rw [if_neg hany, List.map_append]
    refine List.Nodup.append h (List.nodup_singleton u) ?_
    intro x hx hxu
    rcases List.mem_singleton.mp hxu with rfl
    obtain ⟨q, hq, hqe⟩ := List.mem_map.mp hx
    exact hany (List.any_eq_true.mpr ⟨q, hq, by simp [hqe]⟩)

theorem decisionsFor_mem {oracle : Nat → ℚ → Bool} {w : ℚ} :
    ∀ (l : List Nat) (k : Nat) (d : List (Nat × Bool)) {p : Nat × Bool},
    p ∈ decisionsFor oracle w k l d → p ∈ d ∨ p.1 ∈ l
  | [], _, _, _, hp => Or.inl hp
  | u :: rest, k, d, p, hp => by
    rcases decisionsFor_mem rest (k + 1) (dictSet d u (oracle k w)) hp with h | h
    · rcases mem_dictSet h with h' | ⟨h', -⟩
      · exact Or.inr (by rw [h']; exact List.mem_cons_self u rest)
      · exact Or.inl h'
    · exact Or.inr (List.mem_cons_of_mem u h)

theorem decisionsFor_keys_nodup {oracle : Nat → ℚ → Bool} {w : ℚ} :
    ∀ (l : List Nat) (k : Nat) (d : List (Nat × Bool)),
    ((d.map Prod.fst)).Nodup → (((decisionsFor oracle w k l d).map Prod.fst)).Nodup
  | [], _, _, h => h
  | u :: rest, k, d, h =>
    decisionsFor_keys_nodup rest (k + 1) (dictSet d u (oracle k w)) (keys_dictSet h)

theorem decisionsFor_congr {o1 o2 : Nat → ℚ → Bool} {w : ℚ} :
    ∀ (l : List Nat) (k : Nat) (d : List (Nat × Bool)),
    (∀ j w', k ≤ j → j < k + l.length → o1 j w' = o2 j w') →
    decisionsFor o1 w k l d = decisionsFor o2 w k l d
  | [], _, _, _ => rfl
  | u :: rest, k, d, h => by
    have hk : o1 k w = o2 k w :=
      h k w (Nat.le_refl k) (by simp only [List.length_cons]; omega)
    show decisionsFor o1 w (k + 1) rest (dictSet d u (o1 k w)) = _
    rw [hk]
    exact decisionsFor_congr rest (k + 1) (dictSet d u (o2 k w))
      fun j w' hj hj' => h j w' (Nat.le_of_succ_le hj)
        (by simp only [List.length_cons]; omega)

theorem simStep_skip {oracle : Nat → ℚ → Bool} {q1 q2 q3 : ℚ} {st : SimState}
    {row : LoopRow} (h : rowLive st.status row = false) :
    simStep oracle q1 q2 q3 st row = st := by
  simp [simStep, h]

theorem simStep_exec {oracle : Nat → ℚ → Bool} {q1 q2 q3 : ℚ} {st : SimState}
    {row : LoopRow} (h : rowLive st.status row = true)
    (ha : ((stepRec oracle q1 q2 q3 st row).decisions.all fun p => p.2) = true) :
    simStep oracle q1 q2 q3 st row =
      ⟨matchAll row.members st.status,
       st.executed ++ [stepRec oracle q1 q2 q3 st row], st.rejected,
       st.counter + 1, st.draws + row.members.length⟩ := by
  simp [simStep, h, ha]

theorem simStep_rej {oracle : Nat → ℚ → Bool} {q1 q2 q3 : ℚ} {st : SimState}
    {row : LoopRow} (h : rowLive st.status row = true)
    (ha : ((stepRec oracle q1 q2 q3 st row).decisions.all fun p => p.2) = false) :
    simStep oracle q1 q2 q3 st row =
      ⟨declineAll (stepRec oracle q1 q2 q3 st row).decisions st.status,
       st.executed, st.rejected ++ [stepRec oracle q1 q2 q3 st row],
       st.counter + 1, st.draws + row.members.length⟩ := by
  simp [simStep, h, ha]

theorem scanInv_step {c0 : Nat} {q1 q2 q3 : ℚ} {o : Nat → ℚ → Bool} {st : SimState}
    {row : LoopRow} (h : ScanInv c0 q1 q2 q3 st) :
    ScanInv c0 q1 q2 q3 (simStep o q1 q2 q3 st row) := by
  by_cases hl : rowLive st.status row = true
  case neg =>
    rw [simStep_skip (by simpa using hl)]
    exact h
  case pos =>
  have hmem : ∀ u ∈ row.members, st.status u = some Status.available := rowLive_iff.mp hl
  have hrm : (stepRec o q1 q2 q3 st row).members = row.members := rfl
  have hkeys : ∀ p ∈ (stepRec o q1 q2 q3 st row).decisions, p.1 ∈ row.members := by
    intro p hp
    rcases decisionsFor_mem row.members st.draws [] hp with h' | h'
    · exact absurd h' (List.not_mem_nil p)
    · exact h'
  have hnd : (((stepRec o q1 q2 q3 st row).decisions.map Prod.fst)).Nodup :=
    decisionsFor_keys_nodup row.members st.draws [] (by simp)
  have hnotav : ∀ {u : Nat} {s : Status}, st.status u = some s → s ≠ Status.available →
      u ∉ row.members := by
    intro u s hs hne hm
    exact hne (Option.some.inj ((hmem u hm).symm.trans hs)).symm
  have hkeynot : ∀ {u : Nat}, u ∉ row.members →
      u ∉ (stepRec o q1 q2 q3 st row).decisions.map Prod.fst := by
    intro u hu hk
    obtain ⟨p, hp, rfl⟩ := List.mem_map.mp hk
    exact hu (hkeys p hp)
  by_cases hacc : ((stepRec o q1 q2 q3 st row).decisions.all fun p => p.2) = true
  · rw [simStep_exec hl hacc]
    refine ⟨?_, ?_, ?_, ?_, ?_, ?_, ?_, ?_, ?_⟩
    · -- execMatched
      intro r' hr' u hu
      show matchAll row.members st.status u = some Status.matched
      rcases List.mem_append.mp hr' with hold | hnew
      · have hm := h.execMatched r' hold u hu
        rw [matchAll_not_mem _ _ (hnotav hm (by simp))]
        exact hm
      · rcases List.mem_singleton.mp hnew with rfl
        rw [hrm] at hu
        exact matchAll_mem _ _ hu
    · -- rejDeclined
      intro r' hr' p hp hfalse
      show matchAll row.members st.status p.1 = some Status.declined
      have hd := h.rejDeclined r' hr' p hp hfalse
      rw [matchAll_not_mem _ _ (hnotav hd (by simp))]
      exact hd
    · -- execDisjoint
      refine List.pairwise_append.mpr ⟨h.execDisjoint, List.pairwise_singleton _ _, ?_⟩
      intro r1 h1 r2 h2 u hu
      rcases List.mem_singleton.mp h2 with rfl
      rw [hrm]
      exact hnotav (h.execMatched r1 h1 u hu) (by simp)
    · -- idsAssigned
      intro r' hr'
      have : r' ∈ st.executed ++ st.rejected ∨ r' = stepRec o q1 q2 q3 st row := by
        rcases List.mem_append.mp hr' with h' | h'
        · rcases List.mem_append.mp h' with h'' | h''
          · exact Or.inl (List.mem_append.mpr (Or.inl h''))
          · exact Or.inr (List.mem_singleton.mp h'')
        · exact Or.inl (List.mem_append.mpr (Or.inr h'))
      rcases this with hold | rfl
      · obtain ⟨k, hk, hk1, hk2⟩ := h.idsAssigned r' hold
        exact ⟨k, hk, hk1, Nat.le_succ_of_le hk2⟩
      · exact ⟨st.counter + 1, rfl, Nat.lt_succ_of_le h.counterLB, Nat.le_refl _⟩
    · -- execIdsMono
      refine List.pairwise_append.mpr ⟨h.execIdsMono, List.pairwise_singleton _ _, ?_⟩
      intro r1 h1 r2 h2 k1 k2 hk1 hk2
      rcases List.mem_singleton.mp h2 with rfl
      have hk2' : k2 = st.counter + 1 := by
        exact (Option.some.inj hk2).symm
      obtain ⟨k, hk, -, hkc⟩ := h.idsAssigned r1 (List.mem_append.mpr (Or.inl h1))
      have hk1' : k1 = k := Option.some.inj (hk1.symm.trans hk)
      rw [hk1', hk2']
      exact Nat.lt_succ_of_le hkc
    · -- counterLB
      exact Nat.le_succ_of_le h.counterLB
    · -- weightsOK
      intro r' hr'
      have : r' ∈ st.executed ++ st.rejected ∨ r' = stepRec o q1 q2 q3 st row := by
        rcases List.mem_append.mp hr' with h' | h'
        · rcases List.mem_append.mp h' with h'' | h''
          · exact Or.inl (List.mem_append.mpr (Or.inl h''))
          · exact Or.inr (List.mem_singleton.mp h'')
        · exact Or.inl (List.mem_append.mpr (Or.inr h'))
      rcases this with hold | rfl
      · exact h.weightsOK r' hold
      · rfl
    · -- execAccepted
      intro r' hr'
      rcases List.mem_append.mp hr' with hold | hnew
      · exact h.execAccepted r' hold
      · rcases List.mem_singleton.mp hnew with rfl
        exact hacc
    · -- rejRefused
      exact h.rejRefused
  · have hacc' : ((stepRec o q1 q2 q3 st row).decisions.all fun p => p.2) = false := by
      simpa using hacc
    rw [simStep_rej hl hacc']
    refine ⟨?_, ?_, ?_, ?_, ?_, ?_, ?_, ?_, ?_⟩
    · -- execMatched
      intro r' hr' u hu
      show declineAll (stepRec o q1 q2 q3 st row).decisions st.status u =
        some Status.matched
      have hm := h.execMatched r' hr' u hu
      rw [declineAll_not_key _ _ (hkeynot (hnotav hm (by simp)))]
      exact hm
    · -- rejDeclined
      intro r' hr' p hp hfalse
      show declineAll (stepRec o q1 q2 q3 st row).decisions st.status p.1 =
        some Status.declined
      rcases List.mem_append.mp hr' with hold | hnew
      · have hd := h.rejDeclined r' hold p hp hfalse
        rw [declineAll_not_key _ _ (hkeynot (hnotav hd (by simp)))]
        exact hd
      · rcases List.mem_singleton.mp hnew with rfl
        have hp' : (p.1, false) ∈ (stepRec o q1 q2 q3 st row).decisions := by
          have : p = (p.1, false) := by
            rw [← hfalse]
          rw [← this]
          exact hp
        exact declineAll_false_mem _ _ hnd hp'
    · -- execDisjoint
      exact h.execDisjoint
    · -- idsAssigned
      intro r' hr'
      have : r' ∈ st.executed ++ st.rejected ∨ r' = stepRec o q1 q2 q3 st row := by
        rcases List.mem_append.mp hr' with h' | h'
        · exact Or.inl (List.mem_append.mpr (Or.inl h'))
        · rcases List.mem_append.mp h' with h'' | h''
          · exact Or.inl (List.mem_append.mpr (Or.inr h''))
          · exact Or.inr (List.mem_singleton.mp h'')
      rcases this with hold | rfl
      · obtain ⟨k, hk, hk1, hk2⟩ := h.idsAssigned r' hold
        exact ⟨k, hk, hk1, Nat.le_succ_of_le hk2⟩
      · exact ⟨st.counter + 1, rfl, Nat.lt_succ_of_le h.counterLB, Nat.le_refl _⟩
    · -- execIdsMono
      exact h.execIdsMono
    · -- counterLB
      exact Nat.le_succ_of_le h.counterLB
    · -- weightsOK
      intro r' hr'
      have : r' ∈ st.executed ++ st.rejected ∨ r' = stepRec o q1 q2 q3 st row := by
        rcases List.mem_append.mp hr' with h' | h'
        · exact Or.inl (List.mem_append.mpr (Or.inl h'))
        · rcases List.mem_append.mp h' with h'' | h''
          · exact Or.inl (List.mem_append.mpr (Or.inr h''))
          · exact Or.inr (List.mem_singleton.mp h'')
      rcases this with hold | rfl
      · exact h.weightsOK r' hold
      · rfl
    · -- execAccepted
      exact h.execAccepted
    · -- rejRefused
      intro r' hr'
      rcases List.mem_append.mp hr' with hold | hnew
      · exact h.rejRefused r' hold
      · rcases List.mem_singleton.mp hnew with rfl
        exact hacc'

theorem scanInv_fold {c0 : Nat} {q1 q2 q3 : ℚ} {o : Nat → ℚ → Bool} :
    ∀ (l : List LoopRow) (st : SimState), ScanInv c0 q1 q2 q3 st →
    ScanInv c0 q1 q2 q3 (l.foldl (simStep o q1 q2 q3) st)
  | [], _, h => h
  | _ :: l, _, h => scanInv_fold l _ (scanInv_step h)

theorem scanInv_init (users : List Nat) (c0 : Nat) (q1 q2 q3 : ℚ) :
    ScanInv c0 q1 q2 q3 ⟨initStatus users, [], [], c0, 0⟩ := by
  refine ⟨?_, ?_, ?_, ?_, ?_, ?_, ?_, ?_, ?_⟩ <;> simp

theorem simulate_eq (users : List Nat) (loops : List LoopRow)
    (oracle : Nat → ℚ → Bool) (c0 : Nat) :
    simulate users loops oracle c0 =
      (loops.filter (rowLive (initStatus users))).foldl
        (simStep oracle (quantileOf (fairnessPool users loops) (1/4))
          (quantileOf (fairnessPool users loops) (2/4))
          (quantileOf (fairnessPool users loops) (3/4)))
        ⟨initStatus users, [], [], c0, 0⟩ := rfl

theorem simulate_inv (users : List Nat) (loops : List LoopRow)
    (oracle : Nat → ℚ → Bool) (c0 : Nat) :
    ScanInv c0 (quantileOf (fairnessPool users loops) (1/4))
      (quantileOf (fairnessPool users loops) (2/4))
      (quantileOf (fairnessPool users loops) (3/4))
      (simulate users loops oracle c0) := by
  rw [simulate_eq]
  exact scanInv_fold _ _ (scanInv_init users c0 _ _ _)

theorem simStep_counter_le (o : Nat → ℚ → Bool) (q1 q2 q3 : ℚ) (st : SimState)
    (row : LoopRow) : (simStep o q1 q2 q3 st row).counter ≤ st.counter + 1 := by
  by_cases hl : rowLive st.status row = true
  · by_cases hacc : ((stepRec o q1 q2 q3 st row).decisions.all fun p => p.2) = true
    · rw [simStep_exec hl hacc]
    · rw [simStep_rej hl (by simpa using hacc)]
  · rw [simStep_skip (by simpa using hl)]
    exact Nat.le_succ _

theorem foldl_counter_le (o : Nat → ℚ → Bool) (q1 q2 q3 : ℚ) :
    ∀ (l : List LoopRow) (st : SimState),
    (l.foldl (simStep o q1 q2 q3) st).counter ≤ st.counter + l.length
  | [], st => Nat.le_refl _
  | row :: l, st => by
    calc (l.foldl (simStep o q1 q2 q3) (simStep o q1 q2 q3 st row)).counter
        ≤ (simStep o q1 q2 q3 st row).counter + l.length := foldl_counter_le o q1 q2 q3 l _
      _ ≤ (st.counter + 1) + l.length :=
          Nat.add_le_add_right (simStep_counter_le o q1 q2 q3 st row) _
      _ = st.counter + (row :: l).length := by simp only [List.length_cons]; omega

theorem simStep_draws_live {o : Nat → ℚ → Bool} {q1 q2 q3 : ℚ} {st : SimState}
    {row : LoopRow} (hl : rowLive st.status row = true) :
    (simStep o q1 q2 q3 st row).draws = st.draws + row.members.length := by
  by_cases hacc : ((stepRec o q1 q2 q3 st row).decisions.all fun p => p.2) = true
  · rw [simStep_exec hl hacc]
  · rw [simStep_rej hl (by simpa using hacc)]

theorem simStep_draws_le (o : Nat → ℚ → Bool) (q1 q2 q3 : ℚ) (st : SimState)
    (row : LoopRow) : st.draws ≤ (simStep o q1 q2 q3 st row).draws := by
  by_cases hl : rowLive st.status row = true
  · rw [simStep_draws_live hl]
    exact Nat.le_add_right _ _
  · rw [simStep_skip (by simpa using hl)]

theorem foldl_draws_le (o : Nat → ℚ → Bool) (q1 q2 q3 : ℚ) :
    ∀ (l : List LoopRow) (st : SimState),
    st.draws ≤ (l.foldl (simStep o q1 q2 q3) st).draws
  | [], _ => Nat.le_refl _
  | row :: l, st =>
    Nat.le_trans (simStep_draws_le o q1 q2 q3 st row) (foldl_draws_le o q1 q2 q3 l _)

theorem simStep_oracle_congr {o1 o2 : Nat → ℚ → Bool} {q1 q2 q3 : ℚ} {st : SimState}
    {row : LoopRow}
    (h : ∀ k w, k < (simStep o1 q1 q2 q3 st row).draws → o1 k w = o2 k w) :
    simStep o1 q1 q2 q3 st row = simStep o2 q1 q2 q3 st row := by
  by_cases hl : rowLive st.status row = true
  · have hdr := @simStep_draws_live o1 q1 q2 q3 st row hl
    have hds : decisionsFor o1 (acceptWeight row.fairness q1 q2 q3) st.draws
        row.members [] = decisionsFor o2 (acceptWeight row.fairness q1 q2 q3) st.draws
        row.members [] := by
      apply decisionsFor_congr
      intro j w' hj hj'
      exact h j w' (by rw [hdr]; omega)
    have hrec : stepRec o1 q1 q2 q3 st row = stepRec o2 q1 q2 q3 st row := by
      unfold stepRec
      rw [hds]
    simp only [simStep]
    rw [hrec]
  · rw [simStep_skip (by simpa using hl), simStep_skip (by simpa using hl)]

theorem foldl_oracle_congr {o1 o2 : Nat → ℚ → Bool} {q1 q2 q3 : ℚ} :
    ∀ (l : List LoopRow) (st : SimState),
    (∀ k w, k < (l.foldl (simStep o1 q1 q2 q3) st).draws → o1 k w = o2 k w) →
    l.foldl (simStep o1 q1 q2 q3) st = l.foldl (simStep o2 q1 q2 q3) st
  | [], _, _ => rfl
  | row :: l, st, h => by
    have hstep : simStep o1 q1 q2 q3 st row = simStep o2 q1 q2 q3 st row := by
      apply simStep_oracle_congr
      intro k w hk
      exact h k w (Nat.lt_of_lt_of_le hk (foldl_draws_le o1 q1 q2 q3 l _))
    show l.foldl (simStep o1 q1 q2 q3) (simStep o1 q1 q2 q3 st row) =
      l.foldl (simStep o2 q1 q2 q3) (simStep o2 q1 q2 q3 st row)
    rw [← hstep]
    exact foldl_oracle_congr l (simStep o1 q1 q2 q3 st row) h

theorem get_trade_weights_eq_table (f v : ℚ) :
    get_trade_weights f v = (1 - specAcceptTable v f, specAcceptTable v f) := by
  simp only [get_trade_weights, specAcceptTable, Prod.mk.injEq]
  split_ifs <;> constructor <;> norm_num [min_def, max_def]

/-- Claim C2 (amended): the acceptance resolver of `simulate_trade_loops`
does not use `get_trade_weights`; for every considered cycle the accept
probability is 0.5 when the fairness score is missing and otherwise
0.8 / 0.6 / 0.4 / 0.2 by the fairness score's position relative to the
25/50/75% quartiles of the period's candidate fairness scores, and the
cycle executes iff all members accept.  The claimed
efficiency-plus-fairness table (0.10/0.50/0.65/0.75/0.85 with boosts
+0.00/+0.03/+0.08/+0.12/+0.15, clamped to [0,1]) is exactly what the
uncalled helper `get_trade_weights` computes. -/
theorem claim_C2_amended (users : List Nat) (loops : List LoopRow)
    (oracle : Nat → ℚ → Bool) (c0 : Nat) :
    (∀ r ∈ (simulate users loops oracle c0).executed ++
        (simulate users loops oracle c0).rejected,
      r.weight = acceptWeight r.fairness
        (quantileOf (fairnessPool users loops) (1/4))
        (quantileOf (fairnessPool users loops) (2/4))
        (quantileOf (fairnessPool users loops) (3/4))) ∧
    (∀ r ∈ (simulate users loops oracle c0).executed,
      (r.decisions.all fun p => p.2) = true) ∧
    (∀ r ∈ (simulate users loops oracle c0).rejected,
      (r.decisions.all fun p => p.2) = false) ∧
    (∀ f v, get_trade_weights f v = (1 - specAcceptTable v f, specAcceptTable v f)) := by
  have hinv := simulate_inv users loops oracle c0
  exact ⟨hinv.weightsOK, hinv.execAccepted, hinv.rejRefused, get_trade_weights_eq_table⟩

/-- Claim C5: within one period's scan no participant appears in two
executed cycles — executed cycles are pairwise disjoint; every member of
an executed cycle is marked matched; and a candidate cycle containing a
member whose status is not available is skipped with no effect at all
(in particular no decision is drawn: the state, including the draw
counter, is unchanged). -/
theorem claim_C5 (users : List Nat) (loops : List LoopRow)
    (oracle : Nat → ℚ → Bool) (c0 : Nat) :
    List.Pairwise (fun r1 r2 => ∀ u ∈ r1.members, u ∉ r2.members)
      (simulate users loops oracle c0).executed ∧
    (∀ r ∈ (simulate users loops oracle c0).executed, ∀ u ∈ r.members,
      (simulate users loops oracle c0).status u = some Status.matched) ∧
    (∀ (q1 q2 q3 : ℚ) (st : SimState) (row : LoopRow),
      rowLive st.status row = false → simStep oracle q1 q2 q3 st row = st) := by
  have hinv := simulate_inv users loops oracle c0
  exact ⟨hinv.execDisjoint, hinv.execMatched, fun _ _ _ _ _ h => simStep_skip h⟩

/-- Claim C6 (amended): a cycle with at least one decliner is appended to
the rejected log, but with the next real trade id `T{k:05d}` (the shared
counter advances for rejected cycles too), not with `trade_id = N/A`;
each declining member's status becomes declined and remains declined at
the end of the period's scan, and a declining member never appears in
any executed cycle of the scan. -/
theorem claim_C6_amended (users : List Nat) (loops : List LoopRow)
    (oracle : Nat → ℚ → Bool) (c0 : Nat) :
    (∀ r ∈ (simulate users loops oracle c0).rejected,
      ∃ k, r.tradeId = some k ∧ c0 < k) ∧
    (∀ r ∈ (simulate users loops oracle c0).rejected, ∀ p ∈ r.decisions,
      p.2 = false → (simulate users loops oracle c0).status p.1 = some Status.declined) ∧
    (∀ r ∈ (simulate users loops oracle c0).rejected, ∀ p ∈ r.decisions,
      p.2 = false → ∀ r' ∈ (simulate users loops oracle c0).executed,
        p.1 ∉ r'.members) := by
  have hinv := simulate_inv users loops oracle c0
  refine ⟨?_, hinv.rejDeclined, ?_⟩
  · intro r hr
    obtain ⟨k, hk, h1, -⟩ := hinv.idsAssigned r (List.mem_append.mpr (Or.inr hr))
    exact ⟨k, hk, h1⟩
  · intro r hr p hp hfalse r' hr' hmem
    have h1 := hinv.rejDeclined r hr p hp hfalse
    have h2 := hinv.execMatched r' hr' p.1 hmem
    rw [h1] at h2
    exact absurd (Option.some.inj h2) (by simp)

/-- Claim C8 (amended): the scan is a pure function of its inputs, and
its output depends on the random oracle only through the draws it
actually consumes — two oracles that agree on every draw index below the
run's consumed count produce identical states (executed table, rejected
table, statuses, counter).  The source never seeds its RNG (no
configuration seed exists), so the configuration alone does not fix the
draws; see the counterexample. -/
theorem claim_C8_amended (users : List Nat) (loops : List LoopRow) (c0 : Nat)
    (o1 o2 : Nat → ℚ → Bool)
    (h : ∀ k w, k < (simulate users loops o1 c0).draws → o1 k w = o2 k w) :
    simulate users loops o1 c0 = simulate users loops o2 c0 := by
  rw [simulate_eq users loops o1 c0, simulate_eq users loops o2 c0]
  apply foldl_oracle_congr
  intro k w hk
  exact h k w (by rw [simulate_eq users loops o1 c0]; exact hk)

/-- Claim C10: a candidate loop that references a user id absent from the
period's user table is silently dropped by the pre-filter — the missing
id is read back as matched via the dict `.get` default — before any
decision is drawn: the run with that row is identical, state for state,
to the run without it, so the row reaches neither log, changes no
status, and raises no error. -/
theorem claim_C10 (users : List Nat) (l1 l2 : List LoopRow) (row : LoopRow)
    (oracle : Nat → ℚ → Bool) (c0 : Nat) (h : ∃ u ∈ row.members, u ∉ users) :
    (∀ u, u ∉ users → statusGetD (initStatus users) u Status.matched = Status.matched) ∧
    simulate users (l1 ++ row :: l2) oracle c0 = simulate users (l1 ++ l2) oracle c0 := by
  refine ⟨fun u hu => statusGetD_of_not_key hu, ?_⟩
  obtain ⟨u, hu, hnotin⟩ := h
  have hrow : rowLive (initStatus users) row = false := by
    rw [Bool.eq_false_iff]
    intro htrue
    have hav := rowLive_iff.mp htrue u hu
    rw [initStatus] at hav
    simp [hnotin] at hav
  have hfilters : (l1 ++ row :: l2).filter (rowLive (initStatus users)) =
      (l1 ++ l2).filter (rowLive (initStatus users)) := by
    simp [List.filter_append, List.filter_cons, hrow]
  have hpool : fairnessPool users (l1 ++ row :: l2) = fairnessPool users (l1 ++ l2) := by
    unfold fairnessPool
    rw [hfilters]
  rw [simulate_eq, simulate_eq, hfilters, hpool]

theorem execIds_mono (users : List Nat) (loops : List LoopRow)
    (oracle : Nat → ℚ → Bool) (c0 : Nat) :
    List.Pairwise (· < ·) (execTradeIds (simulate users loops oracle c0)) := by
  have hinv := simulate_inv users loops oracle c0
  unfold execTradeIds
  rw [List.pairwise_map]
  refine List.Pairwise.imp_of_mem ?_ hinv.execIdsMono
  intro r1 r2 h1 h2 hrel
  obtain ⟨k1, hk1, -, -⟩ := hinv.idsAssigned r1 (List.mem_append.mpr (Or.inl h1))
  obtain ⟨k2, hk2, -, -⟩ := hinv.idsAssigned r2 (List.mem_append.mpr (Or.inl h2))
  rw [hk1, hk2]
  simpa using hrel k1 k2 hk1 hk2

theorem execIds_bounds (users : List Nat) (loops : List LoopRow)
    (oracle : Nat → ℚ → Bool) (c0 : Nat) :
    ∀ k ∈ execTradeIds (simulate users loops oracle c0),
      c0 < k ∧ k ≤ c0 + loops.length := by
  intro k hk
  unfold execTradeIds at hk
  obtain ⟨r, hr, rfl⟩ := List.mem_map.mp hk
  have hinv := simulate_inv users loops oracle c0
  obtain ⟨k', hk', h1, h2⟩ := hinv.idsAssigned r (List.mem_append.mpr (Or.inl hr))
  have hc : (simulate users loops oracle c0).counter ≤ c0 + loops.length := by
    rw [simulate_eq]
    refine Nat.le_trans (foldl_counter_le oracle _ _ _ _ _) ?_
    exact Nat.add_le_add_left (List.length_filter_le _ _) c0
  rw [hk']
  simp only [Option.getD_some]
  exact ⟨h1, Nat.le_trans h2 hc⟩

theorem runPeriodsFrom_ids_lb :
    ∀ (cfg : List PeriodInput) (p : Nat),
    ∀ k ∈ (runPeriodsFrom p cfg).flatMap execTradeIds, p * 1000 < k
  | [], p, k, hk => absurd hk (by simp [runPeriodsFrom])
  | e :: cfg, p, k, hk => by
    rw [runPeriodsFrom, List.flatMap_cons] at hk
    rcases List.mem_append.mp hk with h | h
    · exact (execIds_bounds e.users e.loops e.oracle (p * 1000) k h).1
    · have := runPeriodsFrom_ids_lb cfg (p + 1) k h
      omega

theorem runPeriodsFrom_pairwise :
    ∀ (cfg : List PeriodInput) (p : Nat),
    (∀ e ∈ cfg, FindLoopsRespectsCap e.loops e.users.length) →
    List.Pairwise (· < ·) ((runPeriodsFrom p cfg).flatMap execTradeIds)
  | [], _, _ => by simp [runPeriodsFrom]
  | e :: cfg, p, hcap => by
    rw [runPeriodsFrom, List.flatMap_cons]
    refine List.pairwise_append.mpr ⟨execIds_mono e.users e.loops e.oracle (p * 1000),
      runPeriodsFrom_pairwise cfg (p + 1)
        (fun e' he' => hcap e' (List.mem_cons_of_mem e he')), ?_⟩
    intro a ha b hb
    have hcapE : e.loops.length ≤ 1000 := by
      have := hcap e (List.mem_cons_self e cfg)
      unfold FindLoopsRespectsCap maxLoopsFor at this
      omega
    have hab := execIds_bounds e.users e.loops e.oracle (p * 1000) a ha
    have hblb := runPeriodsFrom_ids_lb cfg (p + 1) b hb
    omega

/-- Claim C7: with every period's candidate-loop table within the
enumerator cap `min(1000, 2 * n_users)` passed by `run_loop_matching`
(the cap honored by the external Rust enumerator, modelled from the
spec), the trade-counter values of executed cycles are strictly
increasing across the whole multi-period run in emission order — within
each period because the shared counter only advances, and across period
boundaries because period `p` starts its counter at `p * 1000` and can
consume at most 1000 ids. -/
theorem claim_C7 (cfg : List PeriodInput)
    (hcap : ∀ e ∈ cfg, FindLoopsRespectsCap e.loops e.users.length) :
    List.Pairwise (· < ·) (allExecIds cfg) :=
  runPeriodsFrom_pairwise cfg 0 hcap

theorem ratTrunc_eq_floor {x : ℚ} (h : 0 ≤ x) : ratTrunc x = ⌊x⌋ := if_pos h

theorem round_eq_floor_of_fract {x : ℚ} (h : Int.fract x < 1/2) : round x = ⌊x⌋ := by
  rw [round_eq]
  have hx : x + 1/2 = (⌊x⌋ : ℚ) + (Int.fract x + 1/2) := by
    rw [Int.fract]
    ring
  rw [hx, Int.floor_int_add]
  have h0 : ⌊Int.fract x + 1/2⌋ = 0 := by
    rw [Int.floor_eq_zero_iff]
    constructor
    · have := Int.fract_nonneg x
      linarith
    · simpa using by linarith
  rw [h0, Int.add_zero]

/-- Claim C9 (amended): for period index `p ≥ 1` the number of newly
admitted participants is `int(initial_count * (1 + growth_rate)^(p-1))`
— truncation toward zero, the floor for a non-negative argument — not
`round(...)` as claimed; the two agree exactly when the fractional part
of `initial_count * (1 + growth_rate)^(p-1)` is below one half. -/
theorem claim_C9_amended (initialUsers growthRate : ℚ) (p : Nat) (hp : 1 ≤ p)
    (h0 : 0 ≤ initialUsers * (1 + growthRate) ^ (p - 1)) :
    newUserCount initialUsers growthRate (p - 1) =
      ⌊initialUsers * (1 + growthRate) ^ (p - 1)⌋ ∧
    (Int.fract (initialUsers * (1 + growthRate) ^ (p - 1)) < 1/2 →
      newUserCount initialUsers growthRate (p - 1) =
        specNewCount initialUsers growthRate p) := by
  constructor
  · exact ratTrunc_eq_floor h0
  · intro hf
    unfold newUserCount specNewCount
    rw [ratTrunc_eq_floor h0, round_eq_floor_of_fract hf]

section ConcreteEvaluations

attribute [local semireducible] Rat.add Rat.mul Rat.inv Rat.sub

/-- Counterexample for claim C2: on a pool where one 2-cycle with
`value_efficiency = 0.9` and fairness 0.5 is considered, the resolver
assigns accept probability 0.8 (the fairness-quartile rule), while the
claimed efficiency table gives 0.85 — the accept probability is not
determined by `value_efficiency` via the claimed table. -/
theorem claim_C2_cex :
    ((simulate [0, 1] [rowAB] oracleTrue 0).executed.map fun r => r.weight) = [4/5] ∧
    specAcceptTable rowAB.value_efficiency ((rowAB.fairness).getD 0) = 17/20 ∧
    ((4 : ℚ)/5) ≠ 17/20 :=
  ⟨by decide, by decide, by decide⟩

/-- Witness for claim C2 (amended): the recorded accept probability of
the one executed cycle of a concrete run equals the quartile weight of
its fairness score. -/
theorem claim_C2_amended_witness :
    (⟨some 1, [0, 1], some (1/2), 4/5, [(0, true), (1, true)]⟩ : DecidedLoop).weight =
      acceptWeight (some (1/2)) (quantileOf (fairnessPool [0, 1] [rowAB]) (1/4))
        (quantileOf (fairnessPool [0, 1] [rowAB]) (2/4))
        (quantileOf (fairnessPool [0, 1] [rowAB]) (3/4)) :=
  (claim_C2_amended [0, 1] [rowAB] oracleTrue 0).1
    ⟨some 1, [0, 1], some (1/2), 4/5, [(0, true), (1, true)]⟩ (by decide)

/-- Counterexample for claim C4: item values 100.008, 100.004, 100 give
rounded cash flows 0, 0, −0.01 whose sum is −0.01, not exactly zero. -/
theorem claim_C4_cex :
    enrichCashFlows [⟨1, 10, 12501/125, 0, 0⟩, ⟨2, 11, 25001/250, 0, 0⟩,
      ⟨3, 12, 100, 0, 0⟩] [0, 1, 2] = [0, 0, -(1/100)] ∧
    (enrichCashFlows [⟨1, 10, 12501/125, 0, 0⟩, ⟨2, 11, 25001/250, 0, 0⟩,
      ⟨3, 12, 100, 0, 0⟩] [0, 1, 2]).sum ≠ 0 :=
  ⟨by decide, by decide⟩

/-- Witness for claim C4 (amended): cent-valued items 100.00, 110.00,
125.50 in a 2-cycle and a 3-cycle. -/
theorem claim_C4_amended_witness :
    cashFlows [(100 : ℚ), 110] = [round2 ((100 : ℚ) - 110), round2 ((110 : ℚ) - 100)] ∧
    cashFlows [(100 : ℚ), 110] = [(100 : ℚ) - 110, (110 : ℚ) - 100] ∧
    (cashFlows [(100 : ℚ), 110]).sum = 0 ∧
    cashFlows [(100 : ℚ), 110, 251/2] =
      [round2 ((100 : ℚ) - 110), round2 ((110 : ℚ) - 251/2), round2 ((251 : ℚ)/2 - 100)] ∧
    cashFlows [(100 : ℚ), 110, 251/2] =
      [(100 : ℚ) - 110, (110 : ℚ) - 251/2, (251 : ℚ)/2 - 100] ∧
    (cashFlows [(100 : ℚ), 110, 251/2]).sum = 0 :=
  claim_C4_amended 100 110 (251/2) ⟨10000, by norm_num⟩ ⟨11000, by norm_num⟩
    ⟨12550, by norm_num⟩

/-- Witness for claim C5: in a run with two candidate cycles sharing user
0, user 0 ends the scan matched (by the first, executed cycle). -/
theorem claim_C5_witness :
    (simulate [0, 1, 2] [rowAB, rowAC] oracleTrue 0).status 0 = some Status.matched :=
  (claim_C5 [0, 1, 2] [rowAB, rowAC] oracleTrue 0).2.1
    ⟨some 1, [0, 1], some (1/2), 4/5, [(0, true), (1, true)]⟩ (by decide) 0 (by decide)

/-- Counterexample for claim C6: a rejected cycle is logged with the real
trade id `T00001` (`some 1`), not with `N/A` (`none`). -/
theorem claim_C6_cex :
    ((simulate [0, 1] [rowAB] oracleFalse 0).rejected.map fun r => r.tradeId) = [some 1] ∧
    some 1 ≠ (none : Option Nat) :=
  ⟨by decide, by decide⟩

/-- Witness for claim C6 (amended): after a concrete run in which both
members of the only cycle decline, user 0 ends the scan declined. -/
theorem claim_C6_amended_witness :
    (simulate [0, 1] [rowAB] oracleFalse 0).status 0 = some Status.declined :=
  (claim_C6_amended [0, 1] [rowAB] oracleFalse 0).2.1
    ⟨some 1, [0, 1], some (1/2), 4/5, [(0, false), (1, false)]⟩ (by decide)
    (0, false) (by decide) (by decide)

/-- Witness for claim C7: a concrete two-period run with one executed
cycle per period has strictly increasing executed trade ids. -/
theorem claim_C7_witness :
    List.Pairwise (· < ·) (allExecIds
      [⟨[0, 1], [rowAB], oracleTrue⟩, ⟨[0, 1], [rowAB], oracleTrue⟩]) :=
  claim_C7 [⟨[0, 1], [rowAB], oracleTrue⟩, ⟨[0, 1], [rowAB], oracleTrue⟩] (by decide)

/-- Counterexample for claim C8: with identical configuration (users,
loop table, counter) but different random draws — the source never seeds
its RNG, so nothing in the configuration fixes them — the executed
tables differ: determinism does not follow from the configuration
alone. -/
theorem claim_C8_cex :
    (simulate [0, 1] [rowAB] oracleTrue 0).executed ≠
      (simulate [0, 1] [rowAB] oracleFalse 0).executed := by
  decide

/-- Witness for claim C8 (amended): two draw oracles that agree on the
two draws the run consumes produce identical final states. -/
theorem claim_C8_amended_witness :
    simulate [0, 1] [rowAB] oracleTrue 0 = simulate [0, 1] [rowAB] oracleTwo 0 :=
  claim_C8_amended [0, 1] [rowAB] 0 oracleTrue oracleTwo (by
    intro k w hk
    have h2 : (simulate [0, 1] [rowAB] oracleTrue 0).draws = 2 := by decide
    rw [h2] at hk
    show true = decide (k < 2)
    exact (decide_eq_true hk).symm)

/-- Counterexample for claim C9: with `initial_count = 10` and
`growth_rate = 0.07`, period 2 admits `int(10.7) = 10` new users, while
the claimed `round(10.7)` is 11. -/
theorem claim_C9_cex :
    newUserCount 10 (7/100) (2 - 1) = 10 ∧ specNewCount 10 (7/100) 2 = 11 ∧
      (10 : ℤ) ≠ 11 :=
  ⟨by decide, by decide, by decide⟩

/-- Witness for claim C9 (amended): with the spec defaults
`initial_count = 15`, `growth_rate = 0.15`, period 2 has
`15 * 1.15 = 17.25`; the code truncates to the floor, and the fractional
part 0.25 is below one half. -/
theorem claim_C9_amended_witness :
    newUserCount 15 (15/100) (2 - 1) = ⌊(15 : ℚ) * (1 + 15/100) ^ (2 - 1)⌋ ∧
    (Int.fract ((15 : ℚ) * (1 + 15/100) ^ (2 - 1)) < 1/2 →
      newUserCount 15 (15/100) (2 - 1) = specNewCount 15 (15/100) 2) :=
  claim_C9_amended 15 (15/100) 2 (by decide) (by decide)

/-- Witness for claim C10: adding a loop row whose member 5 is not in the
user table changes nothing about the run. -/
theorem claim_C10_witness :
    (∀ u, u ∉ ([1, 2] : List Nat) →
      statusGetD (initStatus [1, 2]) u Status.matched = Status.matched) ∧
    simulate [1, 2] [rowBad, rowGood] oracleTrue 0 =
      simulate [1, 2] [rowGood] oracleTrue 0 :=
  claim_C10 [1, 2] [] [rowGood] rowBad oracleTrue 0 ⟨5, by decide, by decide⟩

end ConcreteEvaluations
